import Mathlib

/-!
Verification of the `relearn` reinforcement-learning library core against its
specification.  The Rust code is shallowly embedded: pure functions become Lean
functions, `&mut Prng` threading becomes explicit state passing of an abstract
`Rng` type, `f64` values become `ℚ`, and `usize`/`u64` become `Nat`.
Tuple-destructuring `let` bindings from the source are written with `.1`/`.2`
projections to keep definitional reduction simple.
-/

namespace Relearn

/-- Successor type of an environment step.  From the spec §3 (the defining
`envs/mod.rs` is not among the provided sources):
`Continue(s) | Terminate | Interrupt(s)`. -/
inductive Successor (S : Type u) where
  | Continue (s : S)
  | Terminate
  | Interrupt (s : S)
deriving DecidableEq

/-- Modelled from the spec: `episode_done  ⇔  next ≠ Continue` (§8 step-protocol
invariants).  `Successor::episode_done` is defined in `envs/mod.rs`, which is
not among the provided sources. -/
def Successor.episode_done : Successor S → Bool
  | .Continue _ => false
  | .Terminate => true
  | .Interrupt _ => true

/-- Modelled from the spec: the meta observation's `inner_observation?` "is
`None` iff the inner state is terminal" (§4.D); applies the function to the
state carried by `Continue` or `Interrupt`.  `Successor::map` is defined in
`envs/mod.rs`, which is not among the provided sources. -/
def Successor.map (f : S → T) : Successor S → Successor T
  | .Continue s => .Continue (f s)
  | .Terminate => .Terminate
  | .Interrupt s => .Interrupt (f s)

/-- Modelled from the spec: "converts the successor to `Interrupt` when the
counter reaches 0" (§4.D) — a `Continue` state satisfying the predicate becomes
`Interrupt`; other successors are unchanged.  `Successor::then_interrupt_if` is
defined in `envs/mod.rs`, which is not among the provided sources. -/
def Successor.then_interrupt_if (p : S → Bool) : Successor S → Successor S
  | .Continue s => if p s then .Interrupt s else .Continue s
  | .Terminate => .Terminate
  | .Interrupt s => .Interrupt s

/-- Modelled from the spec: extracts the successor state where one exists
(`Terminate` is the absorbing terminal, §3); used by `MetaEnv::observe` so that
`inner_observation` "is `None` iff the inner state is terminal" (§4.D).
`Successor::into_inner` is defined in `envs/mod.rs`, which is not among the
provided sources. -/
def Successor.into_inner : Successor S → Option S
  | .Continue s => some s
  | .Terminate => none
  | .Interrupt s => some s

/-- An environment (`Environment` trait, spec §4.C): `initial_state`,
`observe`, and `step`, each threading the PRNG explicitly.  The `logger`
argument of `step` is omitted: it is a write-only side channel. -/
structure Env (Rng State Obs Act Fb : Type) : Type where
  initial_state : Rng → State × Rng
  observe : State → Rng → Obs × Rng
  step : State → Act → Rng → (Successor State × Fb) × Rng

/-- An environment distribution (`EnvDistribution`): samples an environment
per trial (spec §4.D). -/
structure EnvDistribution (Rng State Obs Act Fb : Type) : Type where
  sample_environment : Rng → Env Rng State Obs Act Fb × Rng

/-- The `MetaFeedback` decomposition contract from `envs/meta.rs`
(lines 257-268): a neutral outer value and a split into inner/outer parts. -/
structure MetaFeedback (Fb Inner Outer : Type) : Type where
  neutral_outer : Outer
  into_inner_outer : Fb → Inner × Outer

/-- Reward feedback, `pub struct Reward(pub f64)`; the scalar is modelled
as `ℚ`. -/
structure Reward where
  val : ℚ
deriving DecidableEq

/-- `impl MetaFeedback for Reward` (`envs/meta.rs` lines 273-286): the
identity decomposition with neutral outer feedback `Reward(0.0)`. -/
def rewardMetaFeedback : MetaFeedback Reward Reward Reward where
  neutral_outer := ⟨0⟩
  into_inner_outer := fun r => (r, r)

/-- Observation of a completed inner step (`InnerStepObs`, `envs/meta.rs`). -/
structure InnerStepObs (A FI : Type) : Type where
  action : A
  feedback : FI
deriving DecidableEq

/-- Observation of a meta environment (`MetaObservation`, `envs/meta.rs`). -/
structure MetaObservation (O A FI : Type) : Type where
  inner_observation : Option O
  prev_step : Option (InnerStepObs A FI)
  episode_done : Bool
deriving DecidableEq

/-- The state of a `MetaEnv` (`envs/meta.rs` lines 380-391): the sampled inner
environment, the upcoming inner successor, and the previous step observation. -/
structure MetaState (Rng State Obs Act Fb FI : Type) : Type where
  inner_env : Env Rng State Obs Act Fb
  inner_successor : Successor State
  prev_step_obs : Option (InnerStepObs Act FI)

/-- `MetaEnv::initial_state` (`envs/meta.rs` lines 141-150): sample a new
inner environment, sample its initial state, store it as a `Continue`
successor with no previous step. -/
def MetaEnv.initial_state {Rng State Obs Act Fb FI : Type}
    (dist : EnvDistribution Rng State Obs Act Fb) (rng : Rng) :
    MetaState Rng State Obs Act Fb FI × Rng :=
  let e := dist.sample_environment rng
  let s := e.1.initial_state e.2
  (⟨e.1, Successor.Continue s.1, none⟩, s.2)

/-- `MetaEnv::observe` (`envs/meta.rs` lines 152-163): observe through the
stored inner successor (`as_ref().map(...)` on the successor), then read off
`episode_done` and `into_inner`. -/
def MetaEnv.observe {Rng State Obs Act Fb FI : Type}
    (state : MetaState Rng State Obs Act Fb FI) (rng : Rng) :
    MetaObservation Obs Act FI × Rng :=
  let r : Successor Obs × Rng :=
    match state.inner_successor with
    | .Continue s =>
      let o := state.inner_env.observe s rng
      (Successor.Continue o.1, o.2)
    | .Terminate => (Successor.Terminate, rng)
    | .Interrupt s =>
      let o := state.inner_env.observe s rng
      (Successor.Interrupt o.1, o.2)
  (⟨r.1.into_inner, state.prev_step_obs, r.1.episode_done⟩, r.2)

/-- `MetaEnv::step` (`envs/meta.rs` lines 165-202).  If the stored inner
successor is `Continue`, step the inner environment, decompose the feedback,
and record the previous step observation; otherwise ignore the action, start a
fresh inner episode, and return the neutral outer feedback. -/
def MetaEnv.step {Rng State Obs Act Fb FI FO : Type}
    (mf : MetaFeedback Fb FI FO)
    (state : MetaState Rng State Obs Act Fb FI) (action : Act) (rng : Rng) :
    (Successor (MetaState Rng State Obs Act Fb FI) × FO) × Rng :=
  match state.inner_successor with
  | .Continue prev_inner_state =>
    let r := state.inner_env.step prev_inner_state action rng
    let io := mf.into_inner_outer r.1.2
    ((Successor.Continue ⟨state.inner_env, r.1.1, some ⟨action, io.1⟩⟩, io.2), r.2)
  | _ =>
    let s := state.inner_env.initial_state rng
    ((Successor.Continue ⟨state.inner_env, Successor.Continue s.1, none⟩,
      mf.neutral_outer), s.2)

/-- The `InnerEpisodeDone` capability of a meta state (`envs/meta.rs`
lines 463-472): whether the stored inner successor ended its episode. -/
def MetaState.inner_episode_done {Rng State Obs Act Fb FI : Type}
    (state : MetaState Rng State Obs Act Fb FI) : Bool :=
  state.inner_successor.episode_done

/-- Package the meta environment functions as an `Env`
(`impl Environment for MetaEnv`, `envs/meta.rs` lines 128-203). -/
def metaEnvAsEnv {Rng State Obs Act Fb FI FO : Type}
    (mf : MetaFeedback Fb FI FO) (dist : EnvDistribution Rng State Obs Act Fb) :
    Env Rng (MetaState Rng State Obs Act Fb FI) (MetaObservation Obs Act FI) Act FO where
  initial_state := MetaEnv.initial_state dist
  observe := MetaEnv.observe
  step := MetaEnv.step mf

/-- `TrialEpisodeLimit` wrapper configuration (`envs/meta.rs` lines 540-543);
`episodes_per_trial: u64` is modelled as `Nat`. -/
structure TrialEpisodeLimit where
  episodes_per_trial : Nat

/-- `initial_state` of `Wrapped<E, TrialEpisodeLimit>` (`envs/meta.rs`
lines 580-589): pair the wrapped environment's initial state with the
episode counter. -/
def trialLimit_initial_state {Rng S Obs Act Fb : Type}
    (env : Env Rng S Obs Act Fb) (wrapper : TrialEpisodeLimit) (rng : Rng) :
    (S × Nat) × Rng :=
  let s := env.initial_state rng
  ((s.1, wrapper.episodes_per_trial), s.2)

/-- `step` of `Wrapped<E, TrialEpisodeLimit>` (`envs/meta.rs` lines 596-616).
The wrapped environment's `InnerEpisodeDone` capability is passed as the
function `done`.  The `u64` decrement is modelled as truncated `Nat`
subtraction (the source asserts the counter starts positive, and a counter
that reaches 0 ends the trial before another decrement can happen). -/
def trialLimit_step {Rng S Obs Act Fb : Type}
    (env : Env Rng S Obs Act Fb) (done : S → Bool)
    (state : S × Nat) (action : Act) (rng : Rng) :
    (Successor (S × Nat) × Fb) × Rng :=
  let r := env.step state.1 action rng
  let successor :=
    (r.1.1.map fun s =>
        (s, if done s then state.2 - 1 else state.2)).then_interrupt_if
      fun p => p.2 == 0
  ((successor, r.1.2), r.2)

/-! ### HistoryBuffer (spec-modelled)

The history-buffer implementation (`agents/buffers`) is not among the provided
sources; only its callers (`agents/batch.rs`) are.  The model below follows
the spec §4.F. -/

/-- Modelled from the spec: a partial step's successor carries no observation
for the `Continue` case (§9: "History buffers hold `PartialStep` (no successor
observation) ... preserving the `next` tag but not a separate next-obs copy
for the Continue case"); `Interrupt` keeps its observation
(cf. `agents/batch.rs` lines 162-173). -/
inductive PartialSuccessor (O : Type) where
  | Continue
  | Terminate
  | Interrupt (obs : O)
deriving DecidableEq

/-- Modelled from the spec §4.F: a partial step
`(observation, action, feedback, successor-without-obs)`. -/
structure PartialStep (O A F : Type) : Type where
  observation : O
  action : A
  feedback : F
  next : PartialSuccessor O
deriving DecidableEq

/-- Modelled from the spec §4.F: a thread-local ordered buffer of partial
steps with `soft_threshold ≤ hard_threshold`. -/
structure HistoryBufferModel (O A F : Type) : Type where
  soft_threshold : Nat
  hard_threshold : Nat
  steps : List (PartialStep O A F)

/-- Modelled from the spec §4.F push contract: append the step, then report
*full* when `len ≥ hard_threshold`, or `len ≥ soft_threshold` and the
just-pushed step ends an episode (`next ≠ Continue`). -/
def HistoryBufferModel.push {O A F : Type}
    (b : HistoryBufferModel O A F) (step : PartialStep O A F) :
    HistoryBufferModel O A F × Bool :=
  let steps' := b.steps ++ [step]
  let len := steps'.length
  let ends_episode : Bool :=
    match step.next with
    | .Continue => false
    | _ => true
  let full := decide (b.hard_threshold ≤ len) ||
    (decide (b.soft_threshold ≤ len) && ends_episode)
  ({ b with steps := steps' }, full)

/-! ### Interval spaces -/

/-- `IntervalSpace` (`spaces/interval.rs` lines 13-17): a closed interval
`[low, high]`.  The element type is generalised from `f64` to any linear
order (the float comparisons of the source restricted to non-NaN values). -/
structure IntervalSpace (α : Type) : Type where
  low : α
  high : α

/-- The subset comparison of intervals, `impl PartialOrd for IntervalSpace`
(`spaces/interval.rs` lines 50-62); the same comparison is called
`subset_cmp` by the `SubsetOrd` trait elsewhere in the repository. -/
def IntervalSpace.subset_cmp {α : Type} [LinearOrder α]
    (s other : IntervalSpace α) : Option Ordering :=
  if s.low = other.low ∧ s.high = other.high then some .eq
  else if other.low ≤ s.low ∧ s.high ≤ other.high then some .lt
  else if s.low ≤ other.low ∧ other.high ≤ s.high then some .gt
  else none

/-! ### Logging -/

/-- A value that can be logged (`LogValue`, `logging/mod.rs` lines 180-186);
`Duration` is modelled as `Nat` nanoseconds and `f64` as `ℚ`. -/
inductive LogValue where
  | Nothing
  | CounterIncrement (n : Nat)
  | Duration (nanos : Nat)
  | Scalar (x : ℚ)
  | Index (value size : Nat)
deriving DecidableEq

/-- A hierarchical identifier (`Id`, `logging/mod.rs` lines 226-232).
The source field `namespace` (a Lean keyword) is called `scopes` here; it
stores the namespace in reverse order from innermost to outermost, exactly as
in the source. -/
structure LogId where
  name : String
  scopes : List String
deriving DecidableEq

/-- `Id::with_prefix` (`logging/mod.rs` lines 317-321): push the new
top-level scope onto the (reversed) namespace. -/
def LogId.withScope (id : LogId) (scope : String) : LogId :=
  { id with scopes := id.scopes ++ [scope] }

/-- `Id::components` (`logging/mod.rs` lines 323-333): the namespace from
outermost to innermost followed by the base name. -/
def LogId.components (id : LogId) : List String :=
  id.scopes.reverse ++ [id.name]

/-- Join name components with `/` separators. -/
def renderComponents : List String → String
  | [] => ""
  | [x] => x
  | x :: xs => x ++ "/" ++ renderComponents xs

/-- The rendering of an id, `impl fmt::Display for Id` (`logging/mod.rs`
lines 246-277, ignoring padding): each namespace entry from outermost to
innermost followed by `/`, then the base name. -/
def LogId.render (id : LogId) : String :=
  renderComponents id.components

/-- `ScopedLogger::group_log` (`logging/mod.rs` lines 406-408): the entry
forwarded to the inner logger — the id gains the scope as a new top-level
prefix and the value is passed through. -/
def scopedGroupLog (scope : String) (id : LogId) (value : LogValue) :
    LogId × LogValue :=
  (id.withScope scope, value)

/-! ### Finite spaces and products

Rust's `FiniteSpace` trait is polymorphic over the element type; the claims
concern `IndexSpace`, `SingletonSpace`, and `ProductSpace` over tuples of
finite component spaces.  Elements are embedded into one universal type and a
space is a record of the capability methods.  The product-space methods are
translated from the tuple implementations in `spaces/product.rs`; they are
defined over a list of component spaces (the source macro-expands the same
code for each tuple arity 1..12, plus the `()` base case, which corresponds to
the empty list). -/

/-- Universal element type: `usize` elements of `IndexSpace`, `()` of
`SingletonSpace`, and tuples of `ProductSpace`. -/
inductive Elt where
  | nat (n : Nat)
  | unit
  | tuple (es : List Elt)

/-- A space given by its capability methods: containment, the `FiniteSpace`
methods, and the feature-encoding methods.  `features_out` takes the buffer
slice (a list of rationals standing for the float buffer) and the `zeroed`
flag and returns the updated buffer. -/
structure SpaceModel : Type where
  contains : Elt → Bool
  size : Nat
  to_index : Elt → Nat
  from_index : Nat → Option Elt
  num_features : Nat
  features_out : Elt → List ℚ → Bool → List ℚ

/-- `IndexSpace` (`spaces/index.rs`): the integers `0` to `size - 1`.
`contains` is `value < size` (line 43); `to_index` is the identity (line 77);
`from_index` returns `None` for `index ≥ size` (lines 82-88); features are
one-hot vectors of length `size` (lines 97-116): split off the first `size`
entries of the buffer, zero-fill them unless `zeroed`, and set entry
`to_index element` to one.  Methods are given junk values (`0`) on elements
of the wrong shape, which the Rust type system rules out. -/
def indexSpace (n : Nat) : SpaceModel where
  contains := fun e =>
    match e with
    | .nat k => decide (k < n)
    | _ => false
  size := n
  to_index := fun e =>
    match e with
    | .nat k => k
    | _ => 0
  from_index := fun index => if n ≤ index then none else some (.nat index)
  num_features := n
  features_out := fun e out zeroed =>
    let seg := out.take n
    let seg := if zeroed then seg else List.replicate seg.length 0
    let k :=
      match e with
      | .nat k => k
      | _ => 0
    seg.set k 1 ++ out.drop n

/-- `SingletonSpace` (`spaces/singleton.rs`): a single element `()`.
`size` is 1, `to_index` is 0, `from_index` succeeds only at 0
(lines 38-53).  The feature methods are fixed by the repository's product
feature tests (`spaces/product.rs` lines 553-556 and 597-602, where the
singleton component contributes no features): zero features, buffer
unchanged. -/
def singletonSpace : SpaceModel where
  contains := fun e =>
    match e with
    | .unit => true
    | _ => false
  size := 1
  to_index := fun _ => 0
  from_index := fun index => if index = 0 then some .unit else none
  num_features := 0
  features_out := fun _ out _ => out

/-- The index-splitting loop of the tuple `from_index` (`spaces/product.rs`
lines 260-273): walking the component sizes from the rightmost to the
leftmost, take `index % size` as that component's sub-index and divide
`index` by the size; the pair holds the sub-indices (leftmost first) and the
final leftover quotient. -/
def splitIndex : List Nat → Nat → List Nat × Nat
  | [], index => ([], index)
  | size :: rest, index =>
    let r := splitIndex rest index
    ((r.2 % size) :: r.1, r.2 / size)

/-- The tuple `size` (`spaces/product.rs` lines 247-249): the product of the
component sizes (`()` has size 1, lines 223-225). -/
def sizesProd : List SpaceModel → Nat
  | [] => 1
  | c :: rest => c.size * sizesProd rest

/-- Accumulator loop of the tuple `to_index` (`spaces/product.rs`
lines 251-258): `index = index * size_i + to_index_i` over the components
and the corresponding tuple entries, in order (the macro expansion is
positional; a length mismatch, impossible for Rust tuples, stops the loop). -/
def tupleToIndexAux : List SpaceModel → List Elt → Nat → Nat
  | c :: cs, e :: es, acc => tupleToIndexAux cs es (acc * c.size + c.to_index e)
  | _, _, acc => acc

/-- The tuple `to_index` (`spaces/product.rs` lines 251-258). -/
def tupleToIndex (cs : List SpaceModel) (es : List Elt) : Nat :=
  tupleToIndexAux cs es 0

/-- Component reconstruction of the tuple `from_index` (`spaces/product.rs`
line 272): each component's `from_index` at its sub-index, failing if any
component fails (the `?` operator).  The sub-index list returned by the
splitting loop always has one entry per component. -/
def tupleFromParts : List SpaceModel → List Nat → Option (List Elt)
  | c :: cs, p :: ps =>
    match c.from_index p with
    | none => none
    | some e =>
      match tupleFromParts cs ps with
      | none => none
      | some es => some (e :: es)
  | _, _ => some []

/-- The tuple `from_index` (`spaces/product.rs` lines 260-273): split the
index by the component sizes, fail if a nonzero quotient is left over, and
rebuild the components.  (For `index % size` and `index / size` with
`size = 0` the Rust code panics; Lean's total `%` and `/` are used instead
and the zero-size case is excluded by hypothesis where it matters.) -/
def tupleFromIndex (cs : List SpaceModel) (index : Nat) : Option Elt :=
  let r := splitIndex (cs.map SpaceModel.size) index
  if r.2 ≠ 0 then none
  else
    match tupleFromParts cs r.1 with
    | none => none
    | some es => some (.tuple es)

/-- The tuple `contains` (`spaces/product.rs` lines 214-220): conjunction of
componentwise containment (false on a length mismatch, which the Rust type
system rules out). -/
def tupleContains : List SpaceModel → List Elt → Bool
  | [], [] => true
  | c :: cs, e :: es => c.contains e && tupleContains cs es
  | _, _ => false

/-- The tuple `num_features` (`spaces/product.rs` lines 282-292): the sum of
the component `num_features` (0 for `()`). -/
def tupleNumFeatures : List SpaceModel → Nat
  | [] => 0
  | c :: rest => c.num_features + tupleNumFeatures rest

/-- The tuple `features_out` (`spaces/product.rs` lines 296-310): partition
the output buffer into views of the component `num_features` sizes
(`split_with_sizes`) and delegate each view, with the `zeroed` flag, to the
corresponding component space (the `()` case writes nothing). -/
def tupleFeaturesOut : List SpaceModel → List Elt → List ℚ → Bool → List ℚ
  | [], [], out, _ => out
  | c :: cs, e :: es, out, zeroed =>
    c.features_out e (out.take c.num_features) zeroed ++
      tupleFeaturesOut cs es (out.drop c.num_features) zeroed
  | _, _, out, _ => out

/-- `ProductSpace` over a list of finite component spaces
(`spaces/product.rs`), with each method the corresponding tuple method. -/
def productSpace (cs : List SpaceModel) : SpaceModel where
  contains := fun e =>
    match e with
    | .tuple es => tupleContains cs es
    | _ => false
  size := sizesProd cs
  to_index := fun e =>
    match e with
    | .tuple es => tupleToIndex cs es
    | _ => 0
  from_index := tupleFromIndex cs
  num_features := tupleNumFeatures cs
  features_out := fun e out zeroed =>
    match e with
    | .tuple es => tupleFeaturesOut cs es out zeroed
    | _ => out

/-- `FeatureSpace::features` (`spaces/product.rs` lines 74-79): allocate a
zeroed buffer of `num_features` entries and fill it with
`features_out (zeroed := true)`. -/
def SpaceModel.features (d : SpaceModel) (e : Elt) : List ℚ :=
  d.features_out e (List.replicate d.num_features 0) true

/-- Lawfulness of a finite space: the `FiniteSpace` contract of the spec §3
("size `n ∈ ℕ`, bijection to `{0..n-1}`") together with the `from_index`
failure semantics (§4.B).  The index/singleton spaces satisfy it and the
product construction preserves it. -/
structure LawfulFinite (d : SpaceModel) : Prop where
  to_index_lt : ∀ e, d.contains e = true → d.to_index e < d.size
  from_to : ∀ e, d.contains e = true → d.from_index (d.to_index e) = some e
  to_from : ∀ i, i < d.size →
    ∃ e, d.from_index i = some e ∧ d.to_index e = i ∧ d.contains e = true
  from_index_none : ∀ i, d.size ≤ i → d.from_index i = none

/-- The round-trip laws asserted by the spec §8 for finite spaces. -/
def RoundTrip (d : SpaceModel) : Prop :=
  (∀ e, d.contains e = true → d.from_index (d.to_index e) = some e) ∧
  (∀ i, i < d.size → ∃ e, d.from_index i = some e ∧ d.to_index e = i)

/-- The row-major index encoding as written in the spec §4.B:
"for components `(s₁..sₖ)` with sizes `(n₁..nₖ)`, index
`= ((i₁·n₂+i₂)·n₃+i₃)·…+iₖ` (row-major, leftmost most significant)".
This definition follows the spec's words, to be compared with the
source-derived `tupleToIndex`. -/
def rowMajorSpecIndex (sizes indices : List Nat) : Nat :=
  (sizes.zip indices).foldl (fun acc p => acc * p.1 + p.2) 0

/-- Partition a buffer into consecutive segments of the given sizes (the
shape of `split_with_sizes` in `spaces/product.rs` line 301). -/
def splitBySizes : List Nat → List ℚ → List (List ℚ)
  | [], _ => []
  | n :: ns, out => out.take n :: splitBySizes ns (out.drop n)

/-! ### Concrete fixtures used to instantiate the theorems -/

/-- A deterministic one-step environment in the shape of the repository's
bandit test environments: the initial state is `5`, observation is the state,
and every step terminates with `Reward(1.0)`. -/
def constEnv : Env Nat Nat Nat Nat Reward where
  initial_state := fun rng => (5, rng)
  observe := fun s rng => (s, rng)
  step := fun _s _a rng => ((Successor.Terminate, ⟨1⟩), rng)

/-- A degenerate environment distribution always yielding `constEnv`. -/
def constEnvDist : EnvDistribution Nat Nat Nat Nat Reward where
  sample_environment := fun rng => (constEnv, rng)

/-! ### Theorems -/

/-- Joining a nonempty component list prepends `x ++ "/"`. -/
theorem renderComponents_cons (x : String) (l : List String) (h : l ≠ []) :
    renderComponents (x :: l) = x ++ "/" ++ renderComponents l := by
  cases l with
  | nil => exact absurd rfl h
  | cons y ys => rfl

/-- C10: for every state, action, and RNG, `MetaEnv::step` of the unwrapped
meta environment always returns a `Continue` successor: a bare meta trial
never yields `Terminate` or `Interrupt` on its own. -/
theorem meta_env_step_always_continues {Rng State Obs Act Fb FI FO : Type}
    (mf : MetaFeedback Fb FI FO) (state : MetaState Rng State Obs Act Fb FI)
    (action : Act) (rng : Rng) :
    ∃ s', (MetaEnv.step mf state action rng).1.1 = Successor.Continue s' := by
  obtain ⟨env, suc, prev⟩ := state
  cases suc <;> exact ⟨_, rfl⟩

/-- C1: `MetaEnv::step` follows the two-case step rule.  If the stored inner
successor is `Continue(s₀)`, it steps the inner environment with the given
action, decomposes the inner feedback into an (inner, outer) pair, stores the
inner successor and the (action, inner feedback) pair as the new state's
`prev_step` observation, and returns `Continue` of the new state with the
outer feedback; otherwise it ignores the action, samples a fresh inner initial
state, clears `prev_step`, and returns `Continue` of the new state with the
neutral outer feedback — which for `Reward` feedback is `Reward(0.0)`. -/
theorem meta_env_step_rule {Rng State Obs Act Fb FI FO : Type}
    (mf : MetaFeedback Fb FI FO) (state : MetaState Rng State Obs Act Fb FI)
    (action : Act) (rng : Rng) :
    (∀ s₀, state.inner_successor = Successor.Continue s₀ →
      MetaEnv.step mf state action rng =
        ((Successor.Continue
            ⟨state.inner_env, (state.inner_env.step s₀ action rng).1.1,
              some ⟨action,
                (mf.into_inner_outer (state.inner_env.step s₀ action rng).1.2).1⟩⟩,
          (mf.into_inner_outer (state.inner_env.step s₀ action rng).1.2).2),
         (state.inner_env.step s₀ action rng).2)) ∧
    ((∀ s, state.inner_successor ≠ Successor.Continue s) →
      MetaEnv.step mf state action rng =
        ((Successor.Continue
            ⟨state.inner_env,
              Successor.Continue (state.inner_env.initial_state rng).1, none⟩,
          mf.neutral_outer),
         (state.inner_env.initial_state rng).2)) ∧
    rewardMetaFeedback.neutral_outer = ⟨0⟩ := by
  obtain ⟨env, suc, prev⟩ := state
  refine ⟨?_, ?_, rfl⟩
  · rintro s₀ rfl
    rfl
  · intro h
    cases suc with
    | Continue s => exact absurd rfl (h s)
    | Terminate => rfl
    | Interrupt s => rfl

/-- Witness for C1 at `constEnv`: a step from a continuing inner state. -/
theorem meta_env_step_rule_witness :
    MetaEnv.step rewardMetaFeedback
        (⟨constEnv, Successor.Continue 5, none⟩ :
          MetaState Nat Nat Nat Nat Reward Reward) 7 0 =
      ((Successor.Continue ⟨constEnv, Successor.Terminate, some ⟨7, ⟨1⟩⟩⟩,
        ⟨1⟩), 0) :=
  (meta_env_step_rule rewardMetaFeedback
      ⟨constEnv, Successor.Continue 5, none⟩ 7 0).1 5 rfl

/-- C5: every meta observation satisfies: `inner_observation` is `None` iff
the inner state is terminal; `episode_done` is true iff the stored inner
successor is not `Continue`; and the first observation of an inner episode
(after `initial_state`, or after a step that started a new inner episode) has
`prev_step = None` and `episode_done = false`. -/
theorem meta_env_observation_invariants {Rng State Obs Act Fb FI FO : Type}
    (mf : MetaFeedback Fb FI FO)
    (dist : EnvDistribution Rng State Obs Act Fb)
    (state : MetaState Rng State Obs Act Fb FI) (action : Act)
    (rng rng' : Rng) :
    ((MetaEnv.observe state rng').1.inner_observation = none ↔
      state.inner_successor = Successor.Terminate) ∧
    ((MetaEnv.observe state rng').1.episode_done = true ↔
      ∀ s, state.inner_successor ≠ Successor.Continue s) ∧
    ((MetaEnv.observe ((MetaEnv.initial_state dist rng :
        MetaState Rng State Obs Act Fb FI × Rng)).1 rng').1.prev_step = none ∧
      (MetaEnv.observe ((MetaEnv.initial_state dist rng :
        MetaState Rng State Obs Act Fb FI × Rng)).1 rng').1.episode_done =
        false) ∧
    ((∀ s, state.inner_successor ≠ Successor.Continue s) →
      ∀ s', (MetaEnv.step mf state action rng).1.1 = Successor.Continue s' →
        (MetaEnv.observe s' rng').1.prev_step = none ∧
        (MetaEnv.observe s' rng').1.episode_done = false) := by
  obtain ⟨env, suc, prev⟩ := state
  refine ⟨?_, ?_, ⟨rfl, rfl⟩, ?_⟩
  · cases suc <;> simp [MetaEnv.observe, Successor.into_inner]
  · cases suc <;> simp [MetaEnv.observe, Successor.episode_done]
  · intro h s' hs'
    cases suc with
    | Continue s => exact absurd rfl (h s)
    | Terminate =>
      cases hs'
      exact ⟨rfl, rfl⟩
    | Interrupt s =>
      cases hs'
      exact ⟨rfl, rfl⟩

/-- Witness for C5: the step after a terminated inner episode yields a first
observation with `prev_step = None` and `episode_done = false`. -/
theorem meta_env_observation_invariants_witness :
    (MetaEnv.observe (⟨constEnv, Successor.Continue 5, none⟩ :
        MetaState Nat Nat Nat Nat Reward Reward) 3).1.prev_step = none ∧
    (MetaEnv.observe (⟨constEnv, Successor.Continue 5, none⟩ :
        MetaState Nat Nat Nat Nat Reward Reward) 3).1.episode_done = false :=
  (meta_env_observation_invariants rewardMetaFeedback constEnvDist
      ⟨constEnv, Successor.Terminate, some ⟨7, ⟨1⟩⟩⟩ 7 0 3).2.2.2
    (fun _ h => Successor.noConfusion h)
    ⟨constEnv, Successor.Continue 5, none⟩ rfl

/-- C6: the trial episode limit wrapper pairs the wrapped meta state with a
remaining-inner-episodes counter, decrements the counter when the inner
episode terminated on the step, and converts the step's successor to
`Interrupt` when the counter reaches 0; in all other cases the wrapped
environment's successor and feedback pass through unchanged (paired with the
counter). -/
theorem trial_episode_limit_rule {Rng S Obs Act Fb : Type}
    (env : Env Rng S Obs Act Fb) (done : S → Bool)
    (wrapper : TrialEpisodeLimit)
    (state : S × Nat) (action : Act) (rng : Rng) :
    (trialLimit_initial_state env wrapper rng =
      (((env.initial_state rng).1, wrapper.episodes_per_trial),
        (env.initial_state rng).2)) ∧
    ((trialLimit_step env done state action rng).1.2 =
      (env.step state.1 action rng).1.2) ∧
    ((trialLimit_step env done state action rng).2 =
      (env.step state.1 action rng).2) ∧
    (∀ s, (env.step state.1 action rng).1.1 = Successor.Continue s →
      done s = true → state.2 = 1 →
      (trialLimit_step env done state action rng).1.1 =
        Successor.Interrupt (s, 0)) ∧
    (∀ s n, (env.step state.1 action rng).1.1 = Successor.Continue s →
      done s = true → state.2 = n + 2 →
      (trialLimit_step env done state action rng).1.1 =
        Successor.Continue (s, n + 1)) ∧
    (∀ s, (env.step state.1 action rng).1.1 = Successor.Continue s →
      done s = false → 0 < state.2 →
      (trialLimit_step env done state action rng).1.1 =
        Successor.Continue (s, state.2)) ∧
    ((env.step state.1 action rng).1.1 = Successor.Terminate →
      (trialLimit_step env done state action rng).1.1 =
        Successor.Terminate) ∧
    (∀ s, (env.step state.1 action rng).1.1 = Successor.Interrupt s →
      (trialLimit_step env done state action rng).1.1 =
        Successor.Interrupt
          (s, if done s then state.2 - 1 else state.2)) := by
  refine ⟨rfl, rfl, rfl, ?_, ?_, ?_, ?_, ?_⟩
  · intro s hs hdone hn
    simp [trialLimit_step, hs, hdone, hn, Successor.map,
      Successor.then_interrupt_if]
  · intro s n hs hdone hn
    simp [trialLimit_step, hs, hdone, hn, Successor.map,
      Successor.then_interrupt_if]
  · intro s hs hdone hn
    simp [trialLimit_step, hs, hdone, Successor.map,
      Successor.then_interrupt_if, Nat.pos_iff_ne_zero.mp hn]
  · intro hs
    simp [trialLimit_step, hs, Successor.map, Successor.then_interrupt_if]
  · intro s hs
    simp [trialLimit_step, hs, Successor.map, Successor.then_interrupt_if]

/-- Witness for C6: a trial with one remaining episode whose inner episode
ends is interrupted with counter 0. -/
theorem trial_episode_limit_rule_witness :
    (trialLimit_step (metaEnvAsEnv rewardMetaFeedback constEnvDist)
        MetaState.inner_episode_done
        (⟨constEnv, Successor.Continue 5, none⟩, 1) 7 0).1.1 =
      Successor.Interrupt
        (⟨constEnv, Successor.Terminate, some ⟨7, ⟨1⟩⟩⟩, 0) :=
  (trial_episode_limit_rule (metaEnvAsEnv rewardMetaFeedback constEnvDist)
      MetaState.inner_episode_done ⟨1⟩
      (⟨constEnv, Successor.Continue 5, none⟩, 1) 7 0).2.2.2.1
    ⟨constEnv, Successor.Terminate, some ⟨7, ⟨1⟩⟩⟩ rfl rfl rfl

/-- C7: `HistoryBuffer::push` reports *full* if and only if the new length
reaches the hard threshold, or it reaches the soft threshold and the
just-pushed step ends an episode (its successor is not `Continue`). -/
theorem history_buffer_push_full {O A F : Type}
    (b : HistoryBufferModel O A F) (stp : PartialStep O A F) :
    (b.push stp).2 = true ↔
      (b.hard_threshold ≤ b.steps.length + 1 ∨
        (b.soft_threshold ≤ b.steps.length + 1 ∧
          stp.next ≠ PartialSuccessor.Continue)) := by
  cases hn : stp.next <;>
    simp [HistoryBufferModel.push, hn]

/-- C8: for interval spaces with bounds `a ≤ b` and `c ≤ d`, the subset
comparison yields `Less` or `Equal` iff `c ≤ a ∧ b ≤ d`; it yields `Equal`
exactly when the bounds coincide; and intervals that are subsets in neither
direction are incomparable. -/
theorem interval_subset_cmp_iff {α : Type} [LinearOrder α]
    (a b c d : α) (_hab : a ≤ b) (_hcd : c ≤ d) :
    ((IntervalSpace.subset_cmp ⟨a, b⟩ ⟨c, d⟩ = some .lt ∨
      IntervalSpace.subset_cmp ⟨a, b⟩ ⟨c, d⟩ = some .eq) ↔
      (c ≤ a ∧ b ≤ d)) ∧
    (IntervalSpace.subset_cmp ⟨a, b⟩ ⟨c, d⟩ = some .eq ↔
      (a = c ∧ b = d)) ∧
    (¬(c ≤ a ∧ b ≤ d) → ¬(a ≤ c ∧ d ≤ b) →
      IntervalSpace.subset_cmp ⟨a, b⟩ ⟨c, d⟩ = none) := by
  unfold IntervalSpace.subset_cmp
  dsimp only
  split_ifs with h1 h2 h3 <;> simp_all

/-- Witness for C8: disjoint rational intervals are incomparable. -/
theorem interval_subset_cmp_iff_witness :
    IntervalSpace.subset_cmp (α := ℚ) ⟨0, 1⟩ ⟨2, 3⟩ = none :=
  (interval_subset_cmp_iff (0 : ℚ) 1 2 3 (by norm_num) (by norm_num)).2.2
    (by norm_num) (by norm_num)

/-- C9: logger scoping is non-destructive prefixing — the scoped logger
forwards the same value with the scope prepended on the left of the id's
namespace, the rendered id becomes `scope ++ "/" ++ original`, and the base
name is untouched. -/
theorem scoped_logger_prefix_rule (scope : String) (id : LogId)
    (value : LogValue) :
    (scopedGroupLog scope id value).2 = value ∧
    (scopedGroupLog scope id value).1.name = id.name ∧
    (scopedGroupLog scope id value).1.components = scope :: id.components ∧
    (scopedGroupLog scope id value).1.render =
      scope ++ "/" ++ id.render := by
  have hcomp : (scopedGroupLog scope id value).1.components =
      scope :: id.components := by
    simp [scopedGroupLog, LogId.withScope, LogId.components]
  refine ⟨rfl, rfl, hcomp, ?_⟩
  show ((scopedGroupLog scope id value).1).render = _
  rw [LogId.render, hcomp,
    renderComponents_cons _ _ (by simp [LogId.components]), ← LogId.render]

/-! ### Finite-space lemmas -/

/-- `IndexSpace` satisfies the finite-space contract. -/
theorem lawful_indexSpace (n : Nat) : LawfulFinite (indexSpace n) where
  to_index_lt := by
    intro e he
    cases e <;> simp_all [indexSpace]
  from_to := by
    intro e he
    cases e <;> simp_all [indexSpace]
  to_from := by
    intro i hi
    simp only [indexSpace] at hi
    exact ⟨.nat i, by simp [indexSpace, Nat.not_le_of_lt hi], rfl,
      by simp [indexSpace, hi]⟩
  from_index_none := by
    intro i hi
    simp only [indexSpace] at hi ⊢
    simp [hi]

/-- `SingletonSpace` satisfies the finite-space contract. -/
theorem lawful_singletonSpace : LawfulFinite singletonSpace where
  to_index_lt := by
    intro e he
    simp [singletonSpace]
  from_to := by
    intro e he
    cases e <;> simp_all [singletonSpace]
  to_from := by
    intro i hi
    simp only [singletonSpace] at hi
    have h0 : i = 0 := by omega
    subst h0
    exact ⟨.unit, rfl, rfl, rfl⟩
  from_index_none := by
    intro i hi
    simp only [singletonSpace] at hi ⊢
    have h0 : i ≠ 0 := by omega
    simp [h0]

/-- The leftover quotient of the index-splitting loop is the index divided by
the product of the sizes. -/
theorem splitIndex_snd (sizes : List Nat) (i : Nat) :
    (splitIndex sizes i).2 = i / sizes.prod := by
  induction sizes generalizing i with
  | nil => simp [splitIndex]
  | cons s rest ih =>
    simp only [splitIndex, List.prod_cons, ih]
    rw [Nat.div_div_eq_div_mul, Nat.mul_comm]

/-- Adding a multiple of the total size leaves the split sub-indices
unchanged and lands in the leftover quotient. -/
theorem splitIndex_add_mul (sizes : List Nat) (hpos : ∀ s ∈ sizes, 0 < s)
    (a r : Nat) :
    splitIndex sizes (a * sizes.prod + r) =
      ((splitIndex sizes r).1, a + (splitIndex sizes r).2) := by
  induction sizes generalizing a with
  | nil => simp [splitIndex]
  | cons s rest ih =>
    have hs : 0 < s := hpos s (List.mem_cons_self s rest)
    have hrest : ∀ x ∈ rest, 0 < x := fun x hx =>
      hpos x (List.mem_cons_of_mem s hx)
    have hmul : a * (s :: rest).prod + r = a * s * rest.prod + r := by
      rw [List.prod_cons]
      ring_nf
    simp only [splitIndex, hmul, ih hrest (a * s), Prod.mk.injEq]
    refine ⟨?_, ?_⟩
    · rw [Nat.mul_comm a s, Nat.mul_add_mod]
    · rw [Nat.mul_comm a s, Nat.mul_add_div hs]

/-- `sizesProd` agrees with the product of the mapped sizes. -/
theorem sizesProd_eq (cs : List SpaceModel) :
    sizesProd cs = (cs.map SpaceModel.size).prod := by
  induction cs with
  | nil => rfl
  | cons c rest ih => simp [sizesProd, ih]

/-- A contained tuple has as many elements as the product has components. -/
theorem tupleContains_length (cs : List SpaceModel) (es : List Elt)
    (hc : tupleContains cs es = true) : es.length = cs.length := by
  induction cs generalizing es with
  | nil => cases es <;> simp_all [tupleContains]
  | cons c rest ih =>
    cases es with
    | nil => simp [tupleContains] at hc
    | cons e es' =>
      simp only [tupleContains, Bool.and_eq_true] at hc
      simp [ih es' hc.2]

/-- Generalized accumulator form of the tuple `to_index` loop (for tuples of
the full component-list length). -/
theorem tupleToIndexAux_acc (cs : List SpaceModel) (es : List Elt)
    (h : es.length = cs.length) (acc : Nat) :
    tupleToIndexAux cs es acc = acc * sizesProd cs + tupleToIndexAux cs es 0 := by
  induction cs generalizing es acc with
  | nil => simp [tupleToIndexAux, sizesProd]
  | cons c rest ih =>
    cases es with
    | nil => simp at h
    | cons e es' =>
      have h' : es'.length = rest.length := by simpa using h
      simp only [tupleToIndexAux, sizesProd]
      rw [ih es' h' (acc * c.size + c.to_index e),
        ih es' h' (0 * c.size + c.to_index e)]
      ring

/-- A contained tuple's index is below the product of the sizes. -/
theorem tupleToIndex_lt (cs : List SpaceModel) (es : List Elt)
    (hlaw : ∀ d ∈ cs, LawfulFinite d)
    (hc : tupleContains cs es = true) :
    tupleToIndex cs es < sizesProd cs := by
  induction cs generalizing es with
  | nil =>
    cases es with
    | nil => simp [tupleToIndex, tupleToIndexAux, sizesProd]
    | cons e es' => simp [tupleContains] at hc
  | cons c rest ih =>
    cases es with
    | nil => simp [tupleContains] at hc
    | cons e es' =>
      simp only [tupleContains, Bool.and_eq_true] at hc
      have hlen : es'.length = rest.length := by
        simpa using tupleContains_length (c :: rest) (e :: es') (by
          simp [tupleContains, hc.1, hc.2])
      have hhead : c.to_index e < c.size :=
        (hlaw c (List.mem_cons_self c rest)).to_index_lt e hc.1
      have htail : tupleToIndex rest es' < sizesProd rest :=
        ih es' (fun d hd => hlaw d (List.mem_cons_of_mem c hd)) hc.2
      have hexpand : tupleToIndex (c :: rest) (e :: es') =
          c.to_index e * sizesProd rest + tupleToIndex rest es' := by
        simp only [tupleToIndex, tupleToIndexAux, Nat.zero_mul, Nat.zero_add]
        rw [tupleToIndexAux_acc rest es' hlen]
      rw [hexpand]
      calc c.to_index e * sizesProd rest + tupleToIndex rest es'
          < c.to_index e * sizesProd rest + sizesProd rest := by omega
        _ = (c.to_index e + 1) * sizesProd rest := by ring
        _ ≤ c.size * sizesProd rest := Nat.mul_le_mul_right _ hhead
        _ = sizesProd (c :: rest) := rfl

/-- A positive size product forces every component size to be positive. -/
theorem sizes_pos_of_sizesProd_pos (cs : List SpaceModel)
    (h : 0 < sizesProd cs) : ∀ s ∈ cs.map SpaceModel.size, 0 < s := by
  induction cs with
  | nil => simp
  | cons c rest ih =>
    simp only [sizesProd] at h
    have h1 : 0 < c.size := Nat.pos_of_ne_zero fun h0 => by
      rw [h0, Nat.zero_mul] at h
      exact Nat.lt_irrefl 0 h
    have h2 : 0 < sizesProd rest := Nat.pos_of_ne_zero fun h0 => by
      rw [h0, Nat.mul_zero] at h
      exact Nat.lt_irrefl 0 h
    intro s hs
    simp only [List.map_cons, List.mem_cons] at hs
    rcases hs with hs | hs
    · subst hs
      exact h1
    · exact ih h2 s hs

/-- Positive component sizes give a positive size product. -/
theorem sizesProd_pos (cs : List SpaceModel)
    (hpos : ∀ d ∈ cs, 0 < d.size) : 0 < sizesProd cs := by
  induction cs with
  | nil => simp [sizesProd]
  | cons c rest ih =>
    simp only [sizesProd]
    exact Nat.mul_pos (hpos c (List.mem_cons_self c rest))
      (ih fun d hd => hpos d (List.mem_cons_of_mem c hd))

/-- Lawful contained components have positive sizes. -/
theorem tupleContains_sizes_pos (cs : List SpaceModel) (es : List Elt)
    (hlaw : ∀ d ∈ cs, LawfulFinite d)
    (hc : tupleContains cs es = true) :
    ∀ s ∈ cs.map SpaceModel.size, 0 < s := by
  induction cs generalizing es with
  | nil => simp
  | cons c rest ih =>
    cases es with
    | nil => simp [tupleContains] at hc
    | cons e es' =>
      simp only [tupleContains, Bool.and_eq_true] at hc
      intro s hs
      simp only [List.map_cons, List.mem_cons] at hs
      rcases hs with hs | hs
      · subst hs
        exact Nat.lt_of_le_of_lt (Nat.zero_le _)
          ((hlaw c (List.mem_cons_self c rest)).to_index_lt e hc.1)
      · exact ih es' (fun d hd => hlaw d (List.mem_cons_of_mem c hd)) hc.2 s hs

/-- Splitting the index of a contained tuple recovers the component
sub-indices exactly, with no leftover quotient. -/
theorem splitIndex_toIndex (cs : List SpaceModel) (es : List Elt)
    (hlaw : ∀ d ∈ cs, LawfulFinite d)
    (hc : tupleContains cs es = true) :
    splitIndex (cs.map SpaceModel.size) (tupleToIndex cs es) =
      (List.zipWith (fun c e => SpaceModel.to_index c e) cs es, 0) := by
  induction cs generalizing es with
  | nil =>
    cases es with
    | nil => simp [splitIndex, tupleToIndex, tupleToIndexAux]
    | cons e es' => simp [tupleContains] at hc
  | cons c rest ih =>
    cases es with
    | nil => simp [tupleContains] at hc
    | cons e es' =>
      simp only [tupleContains, Bool.and_eq_true] at hc
      have hlawrest : ∀ d ∈ rest, LawfulFinite d := fun d hd =>
        hlaw d (List.mem_cons_of_mem c hd)
      have hlen : es'.length = rest.length :=
        tupleContains_length rest es' hc.2
      have hhead : c.to_index e < c.size :=
        (hlaw c (List.mem_cons_self c rest)).to_index_lt e hc.1
      have hpos : ∀ s ∈ rest.map SpaceModel.size, 0 < s :=
        tupleContains_sizes_pos rest es' hlawrest hc.2
      have hexpand : tupleToIndex (c :: rest) (e :: es') =
          c.to_index e * (rest.map SpaceModel.size).prod +
            tupleToIndex rest es' := by
        simp only [tupleToIndex, tupleToIndexAux, Nat.zero_mul, Nat.zero_add]
        rw [tupleToIndexAux_acc rest es' hlen, sizesProd_eq]
      simp only [List.map_cons, splitIndex, hexpand,
        splitIndex_add_mul (rest.map SpaceModel.size) hpos,
        ih es' hlawrest hc.2]
      simp [Nat.mod_eq_of_lt hhead, Nat.div_eq_of_lt hhead]

/-- Reconstructing a contained tuple from its component sub-indices
succeeds and yields the tuple back. -/
theorem tupleFromParts_toIndex (cs : List SpaceModel) (es : List Elt)
    (hlaw : ∀ d ∈ cs, LawfulFinite d)
    (hc : tupleContains cs es = true) :
    tupleFromParts cs
      (List.zipWith (fun c e => SpaceModel.to_index c e) cs es) = some es := by
  induction cs generalizing es with
  | nil =>
    cases es with
    | nil => simp [tupleFromParts]
    | cons e es' => simp [tupleContains] at hc
  | cons c rest ih =>
    cases es with
    | nil => simp [tupleContains] at hc
    | cons e es' =>
      simp only [tupleContains, Bool.and_eq_true] at hc
      have hhead : c.from_index (c.to_index e) = some e :=
        (hlaw c (List.mem_cons_self c rest)).from_to e hc.1
      have htail := ih es' (fun d hd => hlaw d (List.mem_cons_of_mem c hd)) hc.2
      simp [tupleFromParts, hhead, htail]

/-- Round trip (one direction) for the product: `from_index (to_index x)`
recovers a contained tuple. -/
theorem tuple_from_to (cs : List SpaceModel)
    (hlaw : ∀ d ∈ cs, LawfulFinite d) (es : List Elt)
    (hc : tupleContains cs es = true) :
    tupleFromIndex cs (tupleToIndex cs es) = some (.tuple es) := by
  simp only [tupleFromIndex, splitIndex_toIndex cs es hlaw hc]
  simp [tupleFromParts_toIndex cs es hlaw hc]

/-- Round trip (other direction), at the level of the splitting loop: any
index below the size splits with no leftover and reconstructs to a contained
tuple with that index. -/
theorem tuple_to_from_parts (cs : List SpaceModel)
    (hlaw : ∀ d ∈ cs, LawfulFinite d) (i : Nat) (hi : i < sizesProd cs) :
    (splitIndex (cs.map SpaceModel.size) i).2 = 0 ∧
    ∃ es, tupleFromParts cs (splitIndex (cs.map SpaceModel.size) i).1 =
        some es ∧
      tupleToIndex cs es = i ∧ tupleContains cs es = true := by
  induction cs generalizing i with
  | nil =>
    have h0 : i = 0 := by
      simp only [sizesProd] at hi
      omega
    subst h0
    exact ⟨rfl, [], rfl, rfl, rfl⟩
  | cons c rest ih =>
    have hprodpos : 0 < sizesProd (c :: rest) := by omega
    have hcpos : 0 < c.size := by
      rcases Nat.eq_zero_or_pos c.size with h0 | h0
      · simp [sizesProd, h0] at hprodpos
      · exact h0
    have hP : 0 < sizesProd rest := by
      rcases Nat.eq_zero_or_pos (sizesProd rest) with h0 | h0
      · simp [sizesProd, h0] at hprodpos
      · exact h0
    have hposrest : ∀ s ∈ rest.map SpaceModel.size, 0 < s :=
      sizes_pos_of_sizesProd_pos rest hP
    have hidiv : i / sizesProd rest < c.size := by
      rw [Nat.div_lt_iff_lt_mul hP]
      exact hi
    have himod : i % sizesProd rest < sizesProd rest := Nat.mod_lt i hP
    have hlawrest : ∀ d ∈ rest, LawfulFinite d := fun d hd =>
      hlaw d (List.mem_cons_of_mem c hd)
    obtain ⟨hleft, es', hparts, hto, hcont⟩ :=
      ih hlawrest (i % sizesProd rest) himod
    obtain ⟨e, hefrom, heto, hecont⟩ :=
      (hlaw c (List.mem_cons_self c rest)).to_from (i / sizesProd rest) hidiv
    have hdecomp : (i / sizesProd rest) * (rest.map SpaceModel.size).prod +
        i % sizesProd rest = i := by
      rw [← sizesProd_eq, Nat.mul_comm]
      exact Nat.div_add_mod i (sizesProd rest)
    have hsplit_i : splitIndex (rest.map SpaceModel.size) i =
        ((splitIndex (rest.map SpaceModel.size) (i % sizesProd rest)).1,
          i / sizesProd rest +
            (splitIndex (rest.map SpaceModel.size) (i % sizesProd rest)).2) := by
      conv_lhs => rw [← hdecomp]
      exact splitIndex_add_mul _ hposrest _ _
    have hsplit : splitIndex ((c :: rest).map SpaceModel.size) i =
        ((i / sizesProd rest) ::
          (splitIndex (rest.map SpaceModel.size) (i % sizesProd rest)).1,
          0) := by
      simp only [List.map_cons, splitIndex, hsplit_i, hleft, Nat.add_zero]
      simp [Nat.mod_eq_of_lt hidiv, Nat.div_eq_of_lt hidiv]
    refine ⟨by rw [hsplit], e :: es', ?_, ?_, ?_⟩
    · rw [hsplit]
      simp [tupleFromParts, hefrom, hparts]
    · have hlen : es'.length = rest.length :=
        tupleContains_length rest es' hcont
      have hexpand : tupleToIndex (c :: rest) (e :: es') =
          c.to_index e * sizesProd rest + tupleToIndex rest es' := by
        simp only [tupleToIndex, tupleToIndexAux, Nat.zero_mul, Nat.zero_add]
        rw [tupleToIndexAux_acc rest es' hlen]
      rw [hexpand, heto, hto, Nat.mul_comm]
      exact Nat.div_add_mod i (sizesProd rest)
    · simp [tupleContains, hecont, hcont]

/-- Failure semantics of the product `from_index`, for components with
positive sizes (a zero-size component makes the Rust code divide by zero):
the result is absent exactly for indices at or beyond the size. -/
theorem tuple_from_index_none_iff (cs : List SpaceModel)
    (hlaw : ∀ d ∈ cs, LawfulFinite d) (hpos : ∀ d ∈ cs, 0 < d.size)
    (i : Nat) :
    tupleFromIndex cs i = none ↔ sizesProd cs ≤ i := by
  constructor
  · intro h
    by_contra hlt
    push_neg at hlt
    obtain ⟨hleft, es, hparts, _, _⟩ := tuple_to_from_parts cs hlaw i hlt
    rw [tupleFromIndex.eq_def] at h
    simp only [hleft, hparts] at h
    simp at h
  · intro h
    have hprod : 0 < sizesProd cs := sizesProd_pos cs hpos
    have hleft : (splitIndex (cs.map SpaceModel.size) i).2 ≠ 0 := by
      rw [splitIndex_snd, ← sizesProd_eq]
      have : 1 ≤ i / sizesProd cs := (Nat.one_le_div_iff hprod).mpr h
      omega
    rw [tupleFromIndex.eq_def]
    simp [hleft]

/-- The tuple `to_index` loop agrees with the spec's row-major fold over the
(size, sub-index) pairs, for any accumulator. -/
theorem tupleToIndexAux_eq_rowMajor (cs : List SpaceModel) (es : List Elt)
    (acc : Nat) :
    tupleToIndexAux cs es acc =
      ((cs.map SpaceModel.size).zip
        (List.zipWith (fun c e => SpaceModel.to_index c e) cs es)).foldl
        (fun acc p => acc * p.1 + p.2) acc := by
  induction cs generalizing es acc with
  | nil => simp [tupleToIndexAux]
  | cons c rest ih =>
    cases es with
    | nil => simp [tupleToIndexAux]
    | cons e es' =>
      simp only [tupleToIndexAux, List.map_cons, List.zipWith_cons_cons,
        List.zip_cons_cons, List.foldl_cons]
      exact ih es' _

/-- The tuple `num_features` is the sum of the component `num_features`. -/
theorem tupleNumFeatures_eq (cs : List SpaceModel) :
    tupleNumFeatures cs = (cs.map SpaceModel.num_features).sum := by
  induction cs with
  | nil => rfl
  | cons c rest ih => simp [tupleNumFeatures, ih]

/-- Filling a freshly zero-allocated buffer concatenates the component
feature vectors in order. -/
theorem tupleFeaturesOut_replicate (cs : List SpaceModel) (es : List Elt)
    (h : es.length = cs.length) :
    tupleFeaturesOut cs es (List.replicate (tupleNumFeatures cs) 0) true =
      ((cs.zip es).map fun p => p.1.features p.2).flatten := by
  induction cs generalizing es with
  | nil =>
    cases es with
    | nil => simp [tupleFeaturesOut, tupleNumFeatures]
    | cons e es' => simp at h
  | cons c rest ih =>
    cases es with
    | nil => simp at h
    | cons e es' =>
      have h' : es'.length = rest.length := by simpa using h
      simp only [tupleNumFeatures, tupleFeaturesOut, List.zip_cons_cons,
        List.map_cons, List.flatten_cons]
      rw [List.take_replicate, List.drop_replicate,
        Nat.min_eq_left (Nat.le_add_right _ _), Nat.add_sub_cancel_left,
        ih es' h']
      rfl

/-- `features_out` of a product partitions the buffer by the component
feature counts and delegates each segment. -/
theorem tupleFeaturesOut_partition (cs : List SpaceModel) (es : List Elt)
    (out : List ℚ) (zeroed : Bool) (hlen : es.length = cs.length)
    (hout : out.length = tupleNumFeatures cs) :
    tupleFeaturesOut cs es out zeroed =
      (List.zipWith (fun p seg => SpaceModel.features_out p.1 p.2 seg zeroed)
        (cs.zip es) (splitBySizes (cs.map SpaceModel.num_features) out)).flatten := by
  induction cs generalizing es out with
  | nil =>
    cases es with
    | nil =>
      have : out = [] := List.length_eq_zero.mp (by simpa [tupleNumFeatures] using hout)
      subst this
      simp [tupleFeaturesOut, splitBySizes]
    | cons e es' => simp at hlen
  | cons c rest ih =>
    cases es with
    | nil => simp at hlen
    | cons e es' =>
      have h' : es'.length = rest.length := by simpa using hlen
      have hdrop : (out.drop c.num_features).length = tupleNumFeatures rest := by
        simp only [List.length_drop, hout, tupleNumFeatures]
        omega
      simp only [tupleFeaturesOut, List.map_cons, splitBySizes,
        List.zip_cons_cons, List.zipWith_cons_cons, List.flatten_cons]
      rw [ih es' (out.drop c.num_features) h' hdrop]

/-- C2: for every finite space (`IndexSpace`, `SingletonSpace`, and products
of lawful finite spaces): for every contained element `x`,
`from_index (to_index x)` returns `Some x`, and for every index `i < size`,
`from_index i` returns some element whose `to_index` is `i`. -/
theorem finite_space_round_trips (n : Nat) (cs : List SpaceModel) :
    RoundTrip (indexSpace n) ∧ RoundTrip singletonSpace ∧
    ((∀ d ∈ cs, LawfulFinite d) → RoundTrip (productSpace cs)) := by
  refine ⟨⟨(lawful_indexSpace n).from_to, fun i hi => ?_⟩,
    ⟨lawful_singletonSpace.from_to, fun i hi => ?_⟩, fun hlaw => ⟨?_, ?_⟩⟩
  · obtain ⟨e, h1, h2, _⟩ := (lawful_indexSpace n).to_from i hi
    exact ⟨e, h1, h2⟩
  · obtain ⟨e, h1, h2, _⟩ := lawful_singletonSpace.to_from i hi
    exact ⟨e, h1, h2⟩
  · intro e he
    cases e with
    | nat k => simp [productSpace] at he
    | unit => simp [productSpace] at he
    | tuple es => exact tuple_from_to cs hlaw es he
  · intro i hi
    simp only [productSpace] at hi
    obtain ⟨hleft, es, hparts, hto, _⟩ := tuple_to_from_parts cs hlaw i hi
    refine ⟨.tuple es, ?_, hto⟩
    show tupleFromIndex cs i = some (.tuple es)
    rw [tupleFromIndex.eq_def]
    simp [hleft, hparts]

/-- Witness for C2: the product of an index space and the singleton space
round-trips the element `(2, ())`. -/
theorem finite_space_round_trips_witness :
    (productSpace [indexSpace 3, singletonSpace]).from_index
        ((productSpace [indexSpace 3, singletonSpace]).to_index
          (Elt.tuple [Elt.nat 2, Elt.unit])) =
      some (Elt.tuple [Elt.nat 2, Elt.unit]) :=
  ((finite_space_round_trips 3 [indexSpace 3, singletonSpace]).2.2
      (by
        intro d hd
        simp only [List.mem_cons, List.not_mem_nil, or_false] at hd
        rcases hd with rfl | rfl
        · exact lawful_indexSpace 3
        · exact lawful_singletonSpace)).1
    (Elt.tuple [Elt.nat 2, Elt.unit]) rfl

/-- C3: for a product of finite component spaces, `size` is the product of
the component sizes; `to_index` is the row-major encoding of the component
sub-indices with the leftmost component most significant; and (for lawful
components with positive sizes) `from_index` returns `None` exactly for
indices at or beyond `size`. -/
theorem product_space_encoding (cs : List SpaceModel) :
    ((productSpace cs).size = (cs.map SpaceModel.size).prod) ∧
    (∀ es, (productSpace cs).to_index (Elt.tuple es) =
      rowMajorSpecIndex (cs.map SpaceModel.size)
        (List.zipWith (fun c e => SpaceModel.to_index c e) cs es)) ∧
    ((∀ d ∈ cs, LawfulFinite d ∧ 0 < d.size) →
      ∀ i, (productSpace cs).from_index i = none ↔
        (productSpace cs).size ≤ i) := by
  refine ⟨?_, ?_, ?_⟩
  · simpa [productSpace] using sizesProd_eq cs
  · intro es
    show tupleToIndex cs es = rowMajorSpecIndex _ _
    rw [tupleToIndex, rowMajorSpecIndex]
    exact tupleToIndexAux_eq_rowMajor cs es 0
  · intro h i
    show tupleFromIndex cs i = none ↔ sizesProd cs ≤ i
    exact tuple_from_index_none_iff cs (fun d hd => (h d hd).1)
      (fun d hd => (h d hd).2) i

/-- Witness for C3: the 3×1×4 product (the repository's own test fixture) has
size 12 and `from_index 12` is absent. -/
theorem product_space_encoding_witness :
    (productSpace [indexSpace 3, indexSpace 1, indexSpace 4]).from_index 12 =
      none :=
  ((product_space_encoding [indexSpace 3, indexSpace 1, indexSpace 4]).2.2
      (by
        intro d hd
        simp only [List.mem_cons, List.not_mem_nil, or_false] at hd
        rcases hd with rfl | rfl | rfl
        · exact ⟨lawful_indexSpace 3, by decide⟩
        · exact ⟨lawful_indexSpace 1, by decide⟩
        · exact ⟨lawful_indexSpace 4, by decide⟩)
      12).mpr (Nat.le_refl 12)

/-- C4: for every product space, `num_features` is the sum of the component
`num_features`; the feature vector of an element is the in-order
concatenation of the component feature vectors; and `features_out` partitions
the output buffer into segments of the component `num_features` sizes and
delegates each segment, with the `zeroed` flag, to the corresponding
component space. -/
theorem product_space_features (cs : List SpaceModel) :
    ((productSpace cs).num_features =
      (cs.map SpaceModel.num_features).sum) ∧
    (∀ es, es.length = cs.length →
      (productSpace cs).features (Elt.tuple es) =
        ((cs.zip es).map fun p => p.1.features p.2).flatten) ∧
    (∀ es out zeroed, es.length = cs.length →
      out.length = (productSpace cs).num_features →
      (productSpace cs).features_out (Elt.tuple es) out zeroed =
        (List.zipWith
          (fun p seg => SpaceModel.features_out p.1 p.2 seg zeroed)
          (cs.zip es)
          (splitBySizes (cs.map SpaceModel.num_features) out)).flatten) := by
  refine ⟨?_, ?_, ?_⟩
  · simpa [productSpace] using tupleNumFeatures_eq cs
  · intro es h
    show tupleFeaturesOut cs es (List.replicate (tupleNumFeatures cs) 0) true = _
    exact tupleFeaturesOut_replicate cs es h
  · intro es out zeroed h hout
    exact tupleFeaturesOut_partition cs es out zeroed h
      (by simpa [productSpace] using hout)

/-- Witness for C4: the feature vector of `(1, 0, 2)` in the 3×1×4 index
product is the concatenation of the component one-hot encodings (the
repository's `index_triple` feature test). -/
theorem product_space_features_witness :
    (productSpace [indexSpace 3, indexSpace 1, indexSpace 4]).features
        (Elt.tuple [Elt.nat 1, Elt.nat 0, Elt.nat 2]) =
      [0, 1, 0, 1, 0, 0, 1, 0] := by
  rw [(product_space_features [indexSpace 3, indexSpace 1, indexSpace 4]).2.1
    [Elt.nat 1, Elt.nat 0, Elt.nat 2] rfl]
  rfl

end Relearn
